import Mathlib

/-!
Shallow embedding of the `snips-nlu-utils` string utilities (`src/string.rs`)
and language configuration (`src/language.rs`).

A text value is modelled as a `List Char` (the sequence of Unicode scalar
values produced by Rust's `str::chars()`).  Byte positions refer to the UTF-8
encoding; `utf8Len` is the Lean transcription of `char::len_utf8`.

The external Unicode character data consumed through the
`unicode_normalization` crate (`decompose_canonical`, `is_combining_mark`,
`compose`) and through the Rust standard library (`char::is_lowercase`,
`char::is_uppercase`, `char::is_whitespace`, `str::to_lowercase`) is not part
of this repository; it is abstracted as a `UnicodeData` record of pure
character functions, and the repository's algorithms are embedded as functions
parametrised by such a record.  `refData` below is a small concrete fragment
of that data, faithful to the real Unicode tables on every character it is
applied to in the theorems of this file.
-/

namespace Snips

/-- Byte length of the UTF-8 encoding of a scalar value (Rust `char::len_utf8`). -/
def utf8Len (c : Char) : Nat :=
  if c.toNat < 0x80 then 1
  else if c.toNat < 0x800 then 2
  else if c.toNat < 0x10000 then 3
  else 4

/-- Total UTF-8 byte length of a text (Rust `str::len`). -/
def byteLen (s : List Char) : Nat := (s.map utf8Len).sum

/-- Starting byte offset of the `i`-th character of `s`; for `i = s.length`
this is the total byte length (the one-past-the-end boundary). -/
def charStart (s : List Char) (i : Nat) : Nat := byteLen (s.take i)

/-- The UTF-8 encoding of a single scalar value as a list of byte values. -/
def utf8Bytes (c : Char) : List Nat :=
  let n := c.toNat
  if n < 0x80 then [n]
  else if n < 0x800 then [0xC0 + n / 64, 0x80 + n % 64]
  else if n < 0x10000 then [0xE0 + n / 4096, 0x80 + n / 64 % 64, 0x80 + n % 64]
  else [0xF0 + n / 262144, 0x80 + n / 4096 % 64, 0x80 + n / 64 % 64, 0x80 + n % 64]

/-- The UTF-8 encoding of a text as a list of byte values (Rust `str::as_bytes`). -/
def utf8Encode (s : List Char) : List Nat := s.flatMap utf8Bytes

/-- The `for (char_index, char) in string.chars().enumerate()` loop of
`convert_to_char_index` (src/string.rs:28-34): `acc` is the accumulated byte
length, `lastCharIndex` the `last_char_index` variable, `charIndex` the
enumeration counter; on exhaustion the loop falls through to
`last_char_index + 1`. -/
def convertToCharIndexLoop (byteIndex acc lastCharIndex charIndex : Nat) :
    List Char → Nat
  | [] => lastCharIndex + 1
  | c :: rest =>
    if byteIndex ≤ acc then charIndex
    else convertToCharIndexLoop byteIndex (acc + utf8Len c) charIndex (charIndex + 1) rest

/-- `convert_to_char_index` (src/string.rs:22-36). -/
def convert_to_char_index (s : List Char) (byteIndex : Nat) : Nat :=
  if s = [] then 0
  else convertToCharIndexLoop byteIndex 0 0 0 s

/-- The loop of `convert_to_byte_index` (src/string.rs:40-45): `result`
accumulates byte lengths until the enumeration counter reaches `charIndex`. -/
def convertToByteIndexLoop (charIndex result currentCharIndex : Nat) :
    List Char → Nat
  | [] => result
  | c :: rest =>
    if currentCharIndex = charIndex then result
    else convertToByteIndexLoop charIndex (result + utf8Len c) (currentCharIndex + 1) rest

/-- `convert_to_byte_index` (src/string.rs:38-47). -/
def convert_to_byte_index (s : List Char) (charIndex : Nat) : Nat :=
  convertToByteIndexLoop charIndex 0 0 s

/-- Closed form used to reason about `convert_to_char_index`: the number of
leading characters whose start offset (shifted by `acc`) is still below `b`. -/
def charIndexCeil (b acc : Nat) : List Char → Nat
  | [] => 0
  | c :: rest => if b ≤ acc then 0 else charIndexCeil b (acc + utf8Len c) rest + 1

/-- Abstraction of the external Unicode character data used by the repository:
the `unicode_normalization` crate primitives and the `char`/`str` case and
whitespace predicates of the Rust standard library.  `toLower` gives the
(context-free) lowercase mapping of one character, as the sequence of
characters `char::to_lowercase` yields. -/
structure UnicodeData where
  decomposeCanonical : Char → List Char
  isCombiningMark : Char → Bool
  compose : Char → Char → Option Char
  toLower : Char → List Char
  isWhitespace : Char → Bool
  isLowercase : Char → Bool
  isUppercase : Char → Bool

/-- `str::to_lowercase`: per-character Unicode lowercase mapping, concatenated.
(The standard library additionally special-cases final sigma; no character in
the theorems below is affected by that rule.) -/
def lowerStr (u : UnicodeData) (s : List Char) : List Char := s.flatMap u.toLower

/-- `str::trim`: drop leading and trailing whitespace characters. -/
def trim (u : UnicodeData) (s : List Char) : List Char :=
  ((s.dropWhile u.isWhitespace).reverse.dropWhile u.isWhitespace).reverse

/-- The `decomposition` vector built by `remove_combination_marks`
(src/string.rs:98-103): the canonical decomposition of the character with
every combining mark filtered out, in decomposition order. -/
def filteredDecomposition (u : UnicodeData) (character : Char) : List Char :=
  (u.decomposeCanonical character).filter (fun c => !u.isCombiningMark c)

/-- `remove_combination_marks` (src/string.rs:97-111): take the first element
of the filtered decomposition (if any) and fold canonical composition over the
remaining elements, collapsing any composition failure to `none`. -/
def remove_combination_marks (u : UnicodeData) (character : Char) : Option Char :=
  let decomposition := filteredDecomposition u character
  (decomposition.drop 1).foldl
    (fun optAcc c => (optAcc.map (fun acc => u.compose acc c)).getD none)
    decomposition.head?

/-- `remove_diacritics` (src/string.rs:93-95): flat-map
`remove_combination_marks` over the characters. -/
def remove_diacritics (u : UnicodeData) (s : List Char) : List Char :=
  s.filterMap (remove_combination_marks u)

/-- `normalize` (src/string.rs:78-80): trim, remove diacritics, lowercase. -/
def normalize (u : UnicodeData) (s : List Char) : List Char :=
  lowerStr u (remove_diacritics u (trim u s))

/-- The loop of `is_title_case` (src/string.rs:143-151), with the `first`
flag as an explicit argument; returns the final `!first` on exhaustion. -/
def titleAux (u : UnicodeData) : Bool → List Char → Bool
  | first, [] => !first
  | first, c :: rest =>
    match first, u.isUppercase c with
    | true, true => titleAux u false rest
    | false, false => titleAux u false rest
    | _, _ => false

/-- `is_title_case` (src/string.rs:142-152). -/
def is_title_case (u : UnicodeData) (s : List Char) : Bool := titleAux u true s

/-- `get_shape` (src/string.rs:130-140). -/
def get_shape (u : UnicodeData) (s : List Char) : String :=
  if s.all u.isLowercase then "xxx"
  else if s.all u.isUppercase then "XXX"
  else if is_title_case u s then "Xxx"
  else "xX"

/-- `FNV_DEFAULT_KEY` (src/string.rs:6): the fixed FNV-1a seed. -/
def FNV_DEFAULT_KEY : Nat := 0xcbf29ce484222325

/-- The 64-bit FNV prime used by the `fnv` crate. -/
def FNV_PRIME : Nat := 0x100000001b3

/-- One FNV-1a step on a 64-bit state: xor in the byte, multiply by the
prime, reduce modulo `2 ^ 64`. -/
def fnvStep (h b : Nat) : Nat := ((h ^^^ b) * FNV_PRIME) % 2 ^ 64

/-- `Hasher::write` of `FnvHasher`: fold the FNV-1a step over the bytes. -/
def fnvWrite (h : Nat) (bytes : List Nat) : Nat := bytes.foldl fnvStep h

/-- Rust `u64 as i32`: keep the low 32 bits and reinterpret them as signed. -/
def toI32 (n : Nat) : Int :=
  let low : Nat := n % 2 ^ 32
  if low < 2 ^ 31 then (low : Int) else (low : Int) - 2 ^ 32

/-- `hash_str_to_i32` (src/string.rs:155-160): FNV-1a over the UTF-8 bytes
starting from `FNV_DEFAULT_KEY`, truncated to a signed 32-bit value. -/
def hash_str_to_i32 (s : List Char) : Int :=
  toI32 (fnvWrite FNV_DEFAULT_KEY (utf8Encode s))

/-- The `Language` enumeration (src/language.rs:26). -/
inductive Language where
  | DE | EN | ES | FR | IT | JA | KO | PT_PT | PT_BR
deriving DecidableEq

/-- `Language::to_string` (src/language.rs:46-60), as a character list. -/
def Language.to_string : Language → List Char
  | Language.DE => ['d', 'e']
  | Language.EN => ['e', 'n']
  | Language.ES => ['e', 's']
  | Language.FR => ['f', 'r']
  | Language.IT => ['i', 't']
  | Language.JA => ['j', 'a']
  | Language.KO => ['k', 'o']
  | Language.PT_PT => ['p', 't', '_', 'p', 't']
  | Language.PT_BR => ['p', 't', '_', 'b', 'r']

/-- The nine locale tags accepted by `Language::from_str`. -/
def supportedTags : List (List Char) :=
  [['d', 'e'], ['e', 'n'], ['e', 's'], ['f', 'r'], ['i', 't'], ['j', 'a'],
   ['k', 'o'], ['p', 't', '_', 'p', 't'], ['p', 't', '_', 'b', 'r']]

/-- `Language::from_str` (src/language.rs:30-43): match the lowercased input
against the nine tags (a Rust `match` on string literals, i.e. a sequential
comparison chain), otherwise produce the "Unknown language" error. -/
def Language.from_str (u : UnicodeData) (it : List Char) : Except (List Char) Language :=
  if lowerStr u it = ['d', 'e'] then Except.ok Language.DE
  else if lowerStr u it = ['e', 'n'] then Except.ok Language.EN
  else if lowerStr u it = ['e', 's'] then Except.ok Language.ES
  else if lowerStr u it = ['f', 'r'] then Except.ok Language.FR
  else if lowerStr u it = ['i', 't'] then Except.ok Language.IT
  else if lowerStr u it = ['j', 'a'] then Except.ok Language.JA
  else if lowerStr u it = ['k', 'o'] then Except.ok Language.KO
  else if lowerStr u it = ['p', 't', '_', 'p', 't'] then Except.ok Language.PT_PT
  else if lowerStr u it = ['p', 't', '_', 'b', 'r'] then Except.ok Language.PT_BR
  else Except.error ("Unknown language ".toList ++ it)

/-- `PUNCTUATION` (src/language.rs:4). -/
def PUNCTUATION : String := "!\"#$%&\x27()*+,-./:;<=>?@[\\]^_`\x7b|\x7d~"

/-- `SPACE` (src/language.rs:5). -/
def SPACE : String := " "

/-- `Language::punctuation` (src/language.rs:63-65): the same constant for
every language. -/
def Language.punctuation (_ : Language) : String := PUNCTUATION

/-- `Language::default_separator` (src/language.rs:67-69): the same constant
for every language. -/
def Language.default_separator (_ : Language) : String := SPACE

/-- Canonical decomposition on a fragment of the real Unicode data:
U+00E7 ç → c + combining cedilla, U+00E9 é → e + combining acute,
U+00C0 À → A + combining grave; every other character used below has no
canonical decomposition. -/
def refDecompose (c : Char) : List Char :=
  if c = Char.ofNat 0xE7 then ['c', Char.ofNat 0x327]
  else if c = Char.ofNat 0xE9 then ['e', Char.ofNat 0x301]
  else if c = Char.ofNat 0xC0 then ['A', Char.ofNat 0x300]
  else [c]

/-- Combining-mark test on a fragment of the real Unicode data: the block
U+0300-U+036F (combining diacritical marks). -/
def refIsCombining (c : Char) : Bool := 0x300 ≤ c.toNat && c.toNat ≤ 0x36F

/-- Canonical composition on a fragment of the real Unicode data. -/
def refCompose (a b : Char) : Option Char :=
  if a = 'e' && b = Char.ofNat 0x301 then some (Char.ofNat 0xE9)
  else if a = 'A' && b = Char.ofNat 0x300 then some (Char.ofNat 0xC0)
  else none

/-- Lowercase mapping on a fragment of the real Unicode data (ASCII letters). -/
def refToLower (c : Char) : List Char :=
  if 65 ≤ c.toNat && c.toNat ≤ 90 then [Char.ofNat (c.toNat + 32)] else [c]

/-- Whitespace test on a fragment of the real Unicode data. -/
def refIsWhitespace (c : Char) : Bool :=
  c.toNat = 32 || c.toNat = 9 || c.toNat = 10 || c.toNat = 13

/-- `char::is_lowercase` on a fragment of the real Unicode data (ASCII). -/
def refIsLower (c : Char) : Bool := 97 ≤ c.toNat && c.toNat ≤ 122

/-- `char::is_uppercase` on a fragment of the real Unicode data (ASCII). -/
def refIsUpper (c : Char) : Bool := 65 ≤ c.toNat && c.toNat ≤ 90

/-- A concrete `UnicodeData` record, faithful to the real Unicode tables on
every character it is applied to in this file. -/
def refData : UnicodeData :=
  ⟨refDecompose, refIsCombining, refCompose, refToLower, refIsWhitespace,
   refIsLower, refIsUpper⟩

/-! ### Helper lemmas about byte offsets and the conversion loops -/

theorem utf8Len_pos (c : Char) : 1 ≤ utf8Len c := by
  unfold utf8Len
  split
  · omega
  split
  · omega
  split
  · omega
  · omega

theorem byteLen_nil : byteLen [] = 0 := rfl

theorem byteLen_cons (c : Char) (s : List Char) :
    byteLen (c :: s) = utf8Len c + byteLen s := by
  simp [byteLen]

theorem charStart_zero (s : List Char) : charStart s 0 = 0 := by
  simp [charStart, byteLen]

theorem charStart_nil (i : Nat) : charStart [] i = 0 := by
  simp [charStart, byteLen]

theorem charStart_cons_succ (c : Char) (s : List Char) (i : Nat) :
    charStart (c :: s) (i + 1) = utf8Len c + charStart s i := by
  simp [charStart, byteLen]

theorem charStart_of_length_le (s : List Char) (i : Nat) (h : s.length ≤ i) :
    charStart s i = byteLen s := by
  rw [charStart, List.take_of_length_le h]

theorem charStart_mono (s : List Char) :
    ∀ i j : Nat, i ≤ j → charStart s i ≤ charStart s j := by
  induction s with
  | nil => intro i j _; rw [charStart_nil, charStart_nil]
  | cons c rest ih =>
    intro i j hij
    cases i with
    | zero => rw [charStart_zero]; exact Nat.zero_le _
    | succ i =>
      cases j with
      | zero => omega
      | succ j =>
        rw [charStart_cons_succ, charStart_cons_succ]
        exact Nat.add_le_add_left (ih i j (Nat.le_of_succ_le_succ hij)) _

theorem charStart_strictMono (s : List Char) :
    ∀ i j : Nat, i < j → j ≤ s.length → charStart s i < charStart s j := by
  induction s with
  | nil => intro i j hij hj; simp at hj; omega
  | cons c rest ih =>
    intro i j hij hj
    cases j with
    | zero => omega
    | succ j =>
      cases i with
      | zero =>
        rw [charStart_zero, charStart_cons_succ]
        have := utf8Len_pos c
        omega
      | succ i =>
        rw [charStart_cons_succ, charStart_cons_succ]
        have hj' : j ≤ rest.length := by simpa using hj
        exact Nat.add_lt_add_left (ih i j (by omega) hj') _

theorem convertToByteIndexLoop_eq (i : Nat) :
    ∀ (s : List Char) (res ci : Nat), ci ≤ i →
      convertToByteIndexLoop i res ci s = res + byteLen (s.take (i - ci)) := by
  intro s
  induction s with
  | nil => intro res ci _; simp [convertToByteIndexLoop, byteLen]
  | cons c rest ih =>
    intro res ci hci
    by_cases h : ci = i
    · subst h
      simp [convertToByteIndexLoop, byteLen]
    · have hlt : ci < i := Nat.lt_of_le_of_ne hci h
      have hk : i - ci = (i - (ci + 1)) + 1 := by omega
      rw [convertToByteIndexLoop, if_neg h, ih (res + utf8Len c) (ci + 1) hlt, hk,
        List.take_succ_cons, byteLen_cons]
      omega

/-- `convert_to_byte_index` returns the starting byte offset of the requested
character, with `List.take`-style clamping past the end. -/
theorem convert_to_byte_index_eq_charStart (s : List Char) (i : Nat) :
    convert_to_byte_index s i = charStart s i := by
  rw [convert_to_byte_index, convertToByteIndexLoop_eq i s 0 0 (Nat.zero_le i)]
  simp [charStart]

theorem charIndexCeil_le_length (b : Nat) :
    ∀ (s : List Char) (acc : Nat), charIndexCeil b acc s ≤ s.length := by
  intro s
  induction s with
  | nil => intro acc; simp [charIndexCeil]
  | cons c rest ih =>
    intro acc
    rw [charIndexCeil]
    split
    · exact Nat.zero_le _
    · simpa using Nat.succ_le_succ (ih (acc + utf8Len c))

theorem charIndexCeil_ge (b : Nat) :
    ∀ (s : List Char) (acc : Nat), b ≤ acc + byteLen s →
      b ≤ acc + charStart s (charIndexCeil b acc s) := by
  intro s
  induction s with
  | nil => intro acc h; simpa [charIndexCeil, charStart_nil] using h
  | cons c rest ih =>
    intro acc h
    rw [charIndexCeil]
    split
    · rw [charStart_zero]; omega
    · rw [charStart_cons_succ]
      have h' : b ≤ (acc + utf8Len c) + byteLen rest := by
        rw [byteLen_cons] at h; omega
      have := ih (acc + utf8Len c) h'
      omega

theorem charIndexCeil_min (b : Nat) :
    ∀ (s : List Char) (acc j : Nat), b ≤ acc + charStart s j →
      charIndexCeil b acc s ≤ j := by
  intro s
  induction s with
  | nil => intro acc j _; simp [charIndexCeil]
  | cons c rest ih =>
    intro acc j h
    rw [charIndexCeil]
    split
    · exact Nat.zero_le _
    · rename_i hb
      cases j with
      | zero => rw [charStart_zero] at h; omega
      | succ j =>
        rw [charStart_cons_succ] at h
        have := ih (acc + utf8Len c) j (by omega)
        omega

theorem charIndexCeil_over (b : Nat) :
    ∀ (s : List Char) (acc : Nat), acc + byteLen s < b →
      charIndexCeil b acc s = s.length := by
  intro s
  induction s with
  | nil => intro acc _; simp [charIndexCeil]
  | cons c rest ih =>
    intro acc h
    rw [byteLen_cons] at h
    rw [charIndexCeil, if_neg (by omega), ih (acc + utf8Len c) (by omega)]
    simp

theorem convertToCharIndexLoop_eq (b : Nat) :
    ∀ (s : List Char) (acc lci : Nat),
      convertToCharIndexLoop b acc lci (lci + 1) s = (lci + 1) + charIndexCeil b acc s := by
  intro s
  induction s with
  | nil => intro acc lci; simp [convertToCharIndexLoop, charIndexCeil]
  | cons c rest ih =>
    intro acc lci
    rw [convertToCharIndexLoop, charIndexCeil]
    split
    · simp
    · rw [ih (acc + utf8Len c) (lci + 1)]
      omega

/-- `convert_to_char_index` agrees with the closed form `charIndexCeil`. -/
theorem convert_to_char_index_eq_ceil (s : List Char) (b : Nat) :
    convert_to_char_index s b = charIndexCeil b 0 s := by
  cases s with
  | nil => simp [convert_to_char_index, charIndexCeil]
  | cons c rest =>
    rw [convert_to_char_index, if_neg (by simp), convertToCharIndexLoop, charIndexCeil]
    split
    · rfl
    · rw [show (0 + 1 : Nat) = 0 + 1 from rfl, convertToCharIndexLoop_eq b rest (0 + utf8Len c) 0]
      omega

/-! ### Claims C1-C3: the position-conversion functions -/

/-- Claim C1: for every text `s` and byte index `b`, `convert_to_char_index`
returns the smallest char index whose character starts at a byte offset `≥ b`
(a byte index inside a multi-byte character is rounded forward), and whenever
`b` exceeds the total byte length it returns the number of characters. -/
theorem claim_c1_char_index_is_ceiling (s : List Char) (b : Nat) :
    (b ≤ byteLen s →
      b ≤ charStart s (convert_to_char_index s b) ∧
      convert_to_char_index s b ≤ s.length ∧
      ∀ j : Nat, b ≤ charStart s j → convert_to_char_index s b ≤ j) ∧
    (byteLen s < b → convert_to_char_index s b = s.length) := by
  rw [convert_to_char_index_eq_ceil]
  constructor
  · intro hb
    refine ⟨?_, charIndexCeil_le_length b s 0, ?_⟩
    · have := charIndexCeil_ge b s 0 (by omega)
      omega
    · intro j hj
      exact charIndexCeil_min b s 0 j (by omega)
  · intro hb
    exact charIndexCeil_over b s 0 (by omega)

theorem claim_c1_witness :
    2 ≤ charStart ['a', Char.ofNat 0xE9] (convert_to_char_index ['a', Char.ofNat 0xE9] 2) ∧
    convert_to_char_index ['a', Char.ofNat 0xE9] 7 = 2 :=
  ⟨((claim_c1_char_index_is_ceiling ['a', Char.ofNat 0xE9] 2).1 (by decide)).1,
   (claim_c1_char_index_is_ceiling ['a', Char.ofNat 0xE9] 7).2 (by decide)⟩

/-- Claim C2: if byte offset `b` is exactly at a character boundary of `s`
(including the end of the text) the round trip through
`convert_to_char_index` and `convert_to_byte_index` restores `b`; if `b`
falls strictly inside a multi-byte character the round trip yields a value
`≥ b`. -/
theorem claim_c2_round_trip (s : List Char) (b : Nat) :
    ((∃ i : Nat, i ≤ s.length ∧ b = charStart s i) →
      convert_to_byte_index s (convert_to_char_index s b) = b) ∧
    (∀ i : Nat, i < s.length → charStart s i < b → b < charStart s (i + 1) →
      b ≤ convert_to_byte_index s (convert_to_char_index s b)) := by
  constructor
  · rintro ⟨i, hi, rfl⟩
    rw [convert_to_byte_index_eq_charStart, convert_to_char_index_eq_ceil]
    have hble : charStart s i ≤ byteLen s := by
      have := charStart_mono s i s.length hi
      rwa [charStart_of_length_le s s.length (Nat.le_refl _)] at this
    have h1 : charStart s i ≤ 0 + charStart s (charIndexCeil (charStart s i) 0 s) :=
      charIndexCeil_ge _ s 0 (by omega)
    have h2 : charIndexCeil (charStart s i) 0 s ≤ i :=
      charIndexCeil_min _ s 0 i (by omega)
    have h3 : charStart s (charIndexCeil (charStart s i) 0 s) ≤ charStart s i :=
      charStart_mono s _ i h2
    omega
  · intro i hi h1 h2
    rw [convert_to_byte_index_eq_charStart, convert_to_char_index_eq_ceil]
    have hble : charStart s (i + 1) ≤ byteLen s := by
      have := charStart_mono s (i + 1) s.length hi
      rwa [charStart_of_length_le s s.length (Nat.le_refl _)] at this
    have := charIndexCeil_ge b s 0 (by omega)
    omega

theorem claim_c2_witness :
    convert_to_byte_index ['a', Char.ofNat 0xE9]
      (convert_to_char_index ['a', Char.ofNat 0xE9] 1) = 1 ∧
    2 ≤ convert_to_byte_index ['a', Char.ofNat 0xE9]
      (convert_to_char_index ['a', Char.ofNat 0xE9] 2) :=
  ⟨(claim_c2_round_trip ['a', Char.ofNat 0xE9] 1).1 ⟨1, by decide, by decide⟩,
   (claim_c2_round_trip ['a', Char.ofNat 0xE9] 2).2 1 (by decide) (by decide) (by decide)⟩

/-- Claim C3: `convert_to_byte_index` returns the exact starting byte offset
of the `i`-th character for `i < length`, is monotonically (indeed strictly)
increasing over `0 ≤ i ≤ length`, and clamps to the total byte length for
`i ≥ length`. -/
theorem claim_c3_byte_index_exact_monotone (s : List Char) (i : Nat) :
    (i < s.length → convert_to_byte_index s i = charStart s i) ∧
    (∀ j : Nat, i ≤ j → convert_to_byte_index s i ≤ convert_to_byte_index s j) ∧
    (∀ j : Nat, i < j → j ≤ s.length → convert_to_byte_index s i < convert_to_byte_index s j) ∧
    (s.length ≤ i → convert_to_byte_index s i = byteLen s) := by
  refine ⟨fun _ => convert_to_byte_index_eq_charStart s i, ?_, ?_, ?_⟩
  · intro j hj
    rw [convert_to_byte_index_eq_charStart, convert_to_byte_index_eq_charStart]
    exact charStart_mono s i j hj
  · intro j hij hj
    rw [convert_to_byte_index_eq_charStart, convert_to_byte_index_eq_charStart]
    exact charStart_strictMono s i j hij hj
  · intro h
    rw [convert_to_byte_index_eq_charStart]
    exact charStart_of_length_le s i h

theorem claim_c3_witness :
    convert_to_byte_index ['a', Char.ofNat 0xE9] 1 = charStart ['a', Char.ofNat 0xE9] 1 ∧
    convert_to_byte_index ['a', Char.ofNat 0xE9] 1 < convert_to_byte_index ['a', Char.ofNat 0xE9] 2 ∧
    convert_to_byte_index ['a', Char.ofNat 0xE9] 5 = byteLen ['a', Char.ofNat 0xE9] :=
  ⟨(claim_c3_byte_index_exact_monotone ['a', Char.ofNat 0xE9] 1).1 (by decide),
   (claim_c3_byte_index_exact_monotone ['a', Char.ofNat 0xE9] 1).2.2.1 2 (by decide) (by decide),
   (claim_c3_byte_index_exact_monotone ['a', Char.ofNat 0xE9] 5).2.2.2 (by decide)⟩

/-! ### Helper lemmas about diacritic removal and normalization -/

theorem remove_combination_marks_eq (u : UnicodeData) (c : Char) :
    remove_combination_marks u c =
      ((filteredDecomposition u c).drop 1).foldl
        (fun optAcc x => (optAcc.map (fun acc => u.compose acc x)).getD none)
        (filteredDecomposition u c).head? := rfl

theorem option_map_getD_none (o : Option Char) (f : Char → Option Char) :
    (o.map f).getD none = o.bind f := by
  cases o <;> rfl

theorem foldl_compose_step_eq (u : UnicodeData) :
    ∀ (ds : List Char) (o : Option Char),
      ds.foldl (fun optAcc x => (optAcc.map (fun acc => u.compose acc x)).getD none) o =
      ds.foldl (fun acc x => acc.bind (fun a => u.compose a x)) o := by
  intro ds
  induction ds with
  | nil => intro o; rfl
  | cons d ds ih =>
    intro o
    rw [List.foldl_cons, List.foldl_cons, option_map_getD_none]
    exact ih _

theorem filterMap_eq_contributions (f : Char → Option Char) :
    ∀ t : List Char, t.filterMap f = t.foldr (fun c acc => (f c).toList ++ acc) [] := by
  intro t
  induction t with
  | nil => rfl
  | cons c t ih =>
    rw [List.filterMap_cons, List.foldr_cons, ← ih]
    cases f c <;> simp

theorem filterMap_fix (f : Char → Option Char) :
    ∀ s : List Char, (∀ c ∈ s, f c = some c) → s.filterMap f = s := by
  intro s
  induction s with
  | nil => intro _; rfl
  | cons c s ih =>
    intro h
    have hc : f c = some c := h c (List.mem_cons_self c s)
    simp [List.filterMap_cons, hc, ih (fun d hd => h d (List.mem_cons_of_mem c hd))]

theorem flatMap_fix (f : Char → List Char) :
    ∀ s : List Char, (∀ c ∈ s, f c = [c]) → s.flatMap f = s := by
  intro s
  induction s with
  | nil => intro _; rfl
  | cons c s ih =>
    intro h
    have hc : f c = [c] := h c (List.mem_cons_self c s)
    simp [List.flatMap_cons, hc, ih (fun d hd => h d (List.mem_cons_of_mem c hd))]

/-! ### Claim C4: per-character structure of `remove_diacritics` -/

/-- Claim C4: each input character contributes zero or one scalar to
`remove_diacritics` output, in input order: nothing when the combining-mark
filtered canonical decomposition is empty (in particular for a standalone
combining mark), and otherwise the result of left-to-right canonical
recomposition of the filtered sequence, where a composition failure at any
step (a `none` propagated through the `Option` fold) yields nothing. -/
theorem claim_c4_remove_diacritics_structure (u : UnicodeData) (t : List Char) :
    remove_diacritics u t =
      t.foldr (fun c acc => (remove_combination_marks u c).toList ++ acc) [] ∧
    (∀ c : Char, filteredDecomposition u c = [] → remove_combination_marks u c = none) ∧
    (∀ (c d : Char) (ds : List Char), filteredDecomposition u c = d :: ds →
      remove_combination_marks u c =
        ds.foldl (fun acc x => acc.bind (fun a => u.compose a x)) (some d)) ∧
    (∀ c : Char, u.decomposeCanonical c = [c] → u.isCombiningMark c = true →
      remove_combination_marks u c = none) := by
  refine ⟨filterMap_eq_contributions _ t, ?_, ?_, ?_⟩
  · intro c h
    rw [remove_combination_marks_eq, h]
    rfl
  · intro c d ds h
    rw [remove_combination_marks_eq, h, List.drop_succ_cons, List.drop_zero,
      List.head?_cons]
    exact foldl_compose_step_eq u ds (some d)
  · intro c h1 h2
    have h : filteredDecomposition u c = [] := by
      rw [filteredDecomposition, h1]
      simp [h2]
    rw [remove_combination_marks_eq, h]
    rfl

theorem claim_c4_witness :
    remove_combination_marks refData (Char.ofNat 0x308) = none ∧
    remove_combination_marks refData (Char.ofNat 0xE9) =
      List.foldl (fun acc x => acc.bind (fun a => refData.compose a x)) (some 'e') [] :=
  ⟨(claim_c4_remove_diacritics_structure refData []).2.2.2 (Char.ofNat 0x308)
      (by decide) (by decide),
   (claim_c4_remove_diacritics_structure refData []).2.2.1 (Char.ofNat 0xE9) 'e' []
      (by decide)⟩

/-! ### Claim C5: `normalize` idempotence -/

/-- Claim C5 (counterexample): `normalize` is not idempotent.  On the text
`['a', ' ', U+0308]` the standalone combining diaeresis is dropped by
diacritic removal, exposing a trailing space that the first pass has already
trimmed past; the second pass trims it, so the two results differ
(`"a "` vs `"a"`). -/
theorem claim_c5_counterexample :
    normalize refData (normalize refData ['a', ' ', Char.ofNat 0x308]) ≠
      normalize refData ['a', ' ', Char.ofNat 0x308] := by decide

/-- Claim C5 (amended): `normalize (normalize t) = normalize t` holds
whenever each stage fixes the already-normalized text: trimming removes
nothing from it, every one of its characters survives
`remove_combination_marks` unchanged, and every one of its characters is
fixed by the lowercase mapping.  (Unconditional idempotence fails: a
character dropped by diacritic removal can expose new edge whitespace.) -/
theorem claim_c5_normalize_idempotent_amended (u : UnicodeData) (t : List Char)
    (h1 : trim u (normalize u t) = normalize u t)
    (h2 : ∀ c ∈ normalize u t, remove_combination_marks u c = some c)
    (h3 : ∀ c ∈ normalize u t, u.toLower c = [c]) :
    normalize u (normalize u t) = normalize u t := by
  show lowerStr u (remove_diacritics u (trim u (normalize u t))) = normalize u t
  rw [h1]
  show lowerStr u ((normalize u t).filterMap (remove_combination_marks u)) = normalize u t
  rw [filterMap_fix _ _ h2]
  exact flatMap_fix _ _ h3

theorem claim_c5_witness :
    normalize refData (normalize refData ['A', 'b']) = normalize refData ['A', 'b'] :=
  claim_c5_normalize_idempotent_amended refData ['A', 'b']
    (by decide) (by decide) (by decide)

/-! ### Claims C6-C7: `get_shape` and `is_title_case` -/

/-- Claim C6 (counterexample): the digit `'1'` is neither lowercase nor
uppercase (case does not apply to it), yet `get_shape "1"` is `"xX"`, not the
`"xxx"` the claim requires for strings whose every cased character is
lowercase. -/
theorem claim_c6_counterexample :
    refData.isLowercase '1' = false ∧ refData.isUppercase '1' = false ∧
    get_shape refData ['1'] = "xX" := by decide

/-- Claim C6 (amended): `get_shape` returns `"xxx"` exactly when every
character satisfies `char::is_lowercase` — vacuously true for the empty
string, but false for any string containing an uncased character such as a
digit or punctuation. -/
theorem claim_c6_lowercase_shape_amended (u : UnicodeData) (t : List Char) :
    get_shape u t = "xxx" ↔ t.all u.isLowercase = true := by
  unfold get_shape
  cases h : t.all u.isLowercase
  · rw [if_neg (by simp [h])]
    constructor
    · intro hc
      exfalso
      revert hc
      split
      · decide
      · split
        · decide
        · decide
    · intro hc
      simp at hc
  · rw [if_pos (by simp [h])]
    simp

/-- Claim C7 (counterexample): in `is_title_case` a subsequent character only
has to be non-uppercase, not lowercase: the digit `'1'` is not lowercase, yet
`"A1"` passes the title-case test and `get_shape "A1"` is `"Xxx"`, not the
`"xX"` the claim requires. -/
theorem claim_c7_counterexample :
    refData.isLowercase '1' = false ∧ is_title_case refData ['A', '1'] = true ∧
    get_shape refData ['A', '1'] = "Xxx" := by decide

theorem titleAux_false_eq (u : UnicodeData) :
    ∀ cs : List Char, titleAux u false cs = cs.all (fun d => !u.isUppercase d) := by
  intro cs
  induction cs with
  | nil => rfl
  | cons c cs ih =>
    cases hc : u.isUppercase c
    · have hstep : titleAux u false (c :: cs) = titleAux u false cs := by
        simp [titleAux, hc]
      rw [hstep, ih, List.all_cons, hc]
      simp
    · have hstep : titleAux u false (c :: cs) = false := by
        simp [titleAux, hc]
      rw [hstep, List.all_cons, hc]
      simp

/-- Claim C7 (amended): the title-case test accepts exactly the nonempty
strings whose first character is uppercase and whose every subsequent
character is non-uppercase (lowercase, digits and punctuation all pass; only
an uppercase subsequent character fails); a string that is neither
all-lowercase nor all-uppercase is classified `"Xxx"` when it passes this
test and `"xX"` otherwise. -/
theorem claim_c7_title_case_amended (u : UnicodeData) (t : List Char) :
    (is_title_case u t = true ↔
      ∃ (c : Char) (cs : List Char), t = c :: cs ∧ u.isUppercase c = true ∧
        cs.all (fun d => !u.isUppercase d) = true) ∧
    (t.all u.isLowercase = false → t.all u.isUppercase = false →
      get_shape u t = if is_title_case u t then "Xxx" else "xX") := by
  constructor
  · cases t with
    | nil => simp [is_title_case, titleAux]
    | cons c cs =>
      cases hc : u.isUppercase c
      · have ht : is_title_case u (c :: cs) = false := by
          simp [is_title_case, titleAux, hc]
        rw [ht]
        constructor
        · intro h
          simp at h
        · rintro ⟨c', cs', heq, hu, _⟩
          injection heq with e1 e2
          subst e1
          rw [hc] at hu
          simp at hu
      · have ht : is_title_case u (c :: cs) = titleAux u false cs := by
          simp [is_title_case, titleAux, hc]
        rw [ht, titleAux_false_eq]
        constructor
        · intro h
          exact ⟨c, cs, rfl, hc, h⟩
        · rintro ⟨c', cs', heq, _, hall⟩
          injection heq with e1 e2
          subst e1
          subst e2
          exact hall
  · intro h1 h2
    unfold get_shape
    rw [if_neg (by simp [h1]), if_neg (by simp [h2])]

theorem claim_c7_witness :
    get_shape refData ['A', '1'] =
      (if is_title_case refData ['A', '1'] then "Xxx" else "xX") :=
  (claim_c7_title_case_amended refData ['A', '1']).2 (by decide) (by decide)

/-! ### Claim C8: `hash_str_to_i32` -/

/-- Claim C8 (counterexample): the composed character U+00E9 and its
decomposed form `e` + U+0301 are canonically equivalent (their composition is
recorded in the Unicode data fragment) but encode to different byte
sequences, and their hashes differ — Unicode-equivalent but byte-different
texts do not in general hash equal. -/
theorem claim_c8_counterexample :
    refData.compose 'e' (Char.ofNat 0x301) = some (Char.ofNat 0xE9) ∧
    utf8Encode [Char.ofNat 0xE9] ≠ utf8Encode ['e', Char.ofNat 0x301] ∧
    hash_str_to_i32 [Char.ofNat 0xE9] ≠ hash_str_to_i32 ['e', Char.ofNat 0x301] := by
  decide

/-- Claim C8 (amended): `hash_str_to_i32` depends only on the raw encoded
bytes of its input — it is the 64-bit FNV-1a hash with seed
`0xcbf29ce484222325` over the UTF-8 bytes, truncated to the low 32 bits and
reinterpreted as signed — so byte-identical texts hash equal (while
Unicode-equivalent but byte-different texts need not). -/
theorem claim_c8_hash_of_bytes_amended (s1 s2 : List Char) :
    (utf8Encode s1 = utf8Encode s2 → hash_str_to_i32 s1 = hash_str_to_i32 s2) ∧
    hash_str_to_i32 s1 =
      toI32 ((utf8Encode s1).foldl
        (fun h b => ((h ^^^ b) * 0x100000001b3) % 2 ^ 64) 0xcbf29ce484222325) := by
  constructor
  · intro h
    unfold hash_str_to_i32 fnvWrite
    rw [h]
  · rfl

theorem claim_c8_witness :
    hash_str_to_i32 ['a'] = hash_str_to_i32 ['a'] :=
  (claim_c8_hash_of_bytes_amended ['a'] ['a']).1 rfl

/-! ### Claims C9-C10: the `Language` configuration -/

theorem mem_supportedTags_cases (x : List Char) (hx : x ∈ supportedTags) :
    x = ['d', 'e'] ∨ x = ['e', 'n'] ∨ x = ['e', 's'] ∨ x = ['f', 'r'] ∨
    x = ['i', 't'] ∨ x = ['j', 'a'] ∨ x = ['k', 'o'] ∨
    x = ['p', 't', '_', 'p', 't'] ∨ x = ['p', 't', '_', 'b', 'r'] := by
  simpa [supportedTags] using hx

set_option maxHeartbeats 1600000 in
/-- Claim C9: `Language::from_str` succeeds exactly when the lowercased input
is one of the nine supported tags, produces the "Unknown language" error on
everything else, and parses back the rendering of every supported language
(given that the lowercase mapping fixes that already-lowercase tag, as the
real Unicode data does). -/
theorem claim_c9_from_str_closed_set (u : UnicodeData) (s : List Char) :
    ((∃ l : Language, Language.from_str u s = Except.ok l) ↔
      lowerStr u s ∈ supportedTags) ∧
    (lowerStr u s ∉ supportedTags →
      Language.from_str u s = Except.error ("Unknown language ".toList ++ s)) ∧
    (∀ l : Language, lowerStr u (Language.to_string l) = Language.to_string l →
      Language.from_str u (Language.to_string l) = Except.ok l) := by
  refine ⟨?_, ?_, ?_⟩
  · unfold Language.from_str
    split_ifs with h1 h2 h3 h4 h5 h6 h7 h8 h9
    · exact Iff.intro (fun _ => by rw [h1]; decide) (fun _ => ⟨Language.DE, rfl⟩)
    · exact Iff.intro (fun _ => by rw [h2]; decide) (fun _ => ⟨Language.EN, rfl⟩)
    · exact Iff.intro (fun _ => by rw [h3]; decide) (fun _ => ⟨Language.ES, rfl⟩)
    · exact Iff.intro (fun _ => by rw [h4]; decide) (fun _ => ⟨Language.FR, rfl⟩)
    · exact Iff.intro (fun _ => by rw [h5]; decide) (fun _ => ⟨Language.IT, rfl⟩)
    · exact Iff.intro (fun _ => by rw [h6]; decide) (fun _ => ⟨Language.JA, rfl⟩)
    · exact Iff.intro (fun _ => by rw [h7]; decide) (fun _ => ⟨Language.KO, rfl⟩)
    · exact Iff.intro (fun _ => by rw [h8]; decide) (fun _ => ⟨Language.PT_PT, rfl⟩)
    · exact Iff.intro (fun _ => by rw [h9]; decide) (fun _ => ⟨Language.PT_BR, rfl⟩)
    · constructor
      · rintro ⟨l, hl⟩
        exact hl.elim
      · intro hmem
        exfalso
        rcases mem_supportedTags_cases _ hmem with h | h | h | h | h | h | h | h | h
        exacts [h1 h, h2 h, h3 h, h4 h, h5 h, h6 h, h7 h, h8 h, h9 h]
  · intro h
    unfold Language.from_str
    split_ifs with h1 h2 h3 h4 h5 h6 h7 h8 h9
    · exact (h (show lowerStr u s ∈ supportedTags by rw [h1]; decide)).elim
    · exact (h (show lowerStr u s ∈ supportedTags by rw [h2]; decide)).elim
    · exact (h (show lowerStr u s ∈ supportedTags by rw [h3]; decide)).elim
    · exact (h (show lowerStr u s ∈ supportedTags by rw [h4]; decide)).elim
    · exact (h (show lowerStr u s ∈ supportedTags by rw [h5]; decide)).elim
    · exact (h (show lowerStr u s ∈ supportedTags by rw [h6]; decide)).elim
    · exact (h (show lowerStr u s ∈ supportedTags by rw [h7]; decide)).elim
    · exact (h (show lowerStr u s ∈ supportedTags by rw [h8]; decide)).elim
    · exact (h (show lowerStr u s ∈ supportedTags by rw [h9]; decide)).elim
    · rfl
  · intro l hl
    cases l <;>
      (simp only [Language.to_string] at hl ⊢; unfold Language.from_str; rw [hl]; rfl)

theorem claim_c9_witness :
    Language.from_str refData (Language.to_string Language.EN) =
      Except.ok Language.EN :=
  (claim_c9_from_str_closed_set refData []).2.2 Language.EN (by decide)

/-- Claim C10: every supported language exposes the identical punctuation set
and the identical default separator; the per-language configuration does not
vary by language. -/
theorem claim_c10_uniform_language_config (l1 l2 : Language) :
    l1.punctuation = l2.punctuation ∧
    l1.punctuation = "!\"#$%&\x27()*+,-./:;<=>?@[\\]^_`\x7b|\x7d~" ∧
    l1.default_separator = l2.default_separator ∧
    l1.default_separator = " " :=
  ⟨rfl, rfl, rfl, rfl⟩

end Snips
